import Mathlib

/-!
Shallow embedding of red-perfume's CSS atomizer (`css.js`) together with
the two observed variants of its CSS parser wrapper (`css-parser.js`).
Collaborators that live outside these files — the raw CSS parser
(`css.parse` of the `css` package), the selector parser (`css-what`), the
declaration encoder (`css-class-encoding.js`), the short-identifier
generator (`css-uglifier.js`), the serializer (`css-stringify.js`) and the
reporting hook (`helpers.throwError`) — are passed as explicit function
parameters, mirroring the module boundaries of the source.
-/

/-- Source-location metadata attached by the raw CSS parser; the engine
only ever deletes it (`recursivelyRemovePosition`). -/
structure Pos where
  line : Nat := 0
  column : Nat := 0
deriving DecidableEq, Repr

/-- A parsed CSS declaration (`{type:'declaration', property, value,
position}`); `css.js` reads `property` and `value` and strips `position`. -/
structure Declaration where
  property : String
  value : String
  position : Option Pos := none
deriving DecidableEq, Repr

/-- One structured selector component as produced by the selector parser
(`css-what`), restricted to the fields `css.js` reads: `type`, `name`, and
the `original` selector text stamped on each first component by
`css-parser.js`. -/
structure SelectorComponent where
  type : String
  name : String
  original : String := ""
deriving DecidableEq, Repr

instance : Inhabited SelectorComponent := ⟨⟨"", "", ""⟩⟩

/-- A parsed rule after selector decomposition: `selectors` is a list of
component lists, `declarations` the declaration list. -/
structure Rule where
  selectors : List (List SelectorComponent)
  declarations : List Declaration
  position : Option Pos := none
deriving DecidableEq, Repr

/-- The parsed stylesheet handed to the engine (`parsed.stylesheet.rules`). -/
structure ParsedCss where
  rules : List Rule
deriving DecidableEq, Repr

/-- A rule as returned by the raw `css.parse` collaborator, before
`css-parser.js` replaces its selector strings by parsed components. -/
structure RawRule where
  selectors : List String
  declarations : List Declaration
  position : Option Pos := none
deriving DecidableEq, Repr

/-- The raw parsed stylesheet returned by `css.parse`. -/
structure RawParsed where
  rules : List RawRule
deriving DecidableEq, Repr

/-- A rule of the rewritten stylesheet: both `handleNonClasses` and the
atomizing branch build `{type:'rule', selectors:[[key]], declarations}`
where the single selector entry is a plain string. -/
structure OutRule where
  type : String
  selectors : List (List String)
  declarations : List Declaration
deriving DecidableEq, Repr

/-- A JavaScript object used as a map: an insertion-ordered association
list (JavaScript objects keep insertion order for string keys). -/
abbrev JsMap (α : Type) := List (String × α)

/-- `m[k]`, `undefined` as `none`. -/
def mapGet {α : Type} : JsMap α → String → Option α
  | [], _ => none
  | p :: rest, k => if p.1 = k then some p.2 else mapGet rest k

/-- `m[k] = v`: overwrite in place when the key exists, else append. -/
def mapSet {α : Type} : JsMap α → String → α → JsMap α
  | [], k, v => [(k, v)]
  | p :: rest, k, v => if p.1 = k then (k, v) :: rest else p :: mapSet rest k v

/-- `delete m[k]`. -/
def mapDelete {α : Type} : JsMap α → String → JsMap α
  | [], _ => []
  | p :: rest, k => if p.1 = k then mapDelete rest k else p :: mapDelete rest k

/-- `Object.keys(m)`, in insertion order. -/
def mapKeys {α : Type} (m : JsMap α) : List String := m.map Prod.fst

/-- JavaScript `s.split(':')[0]`: the prefix of `s` before its first colon
(`s` itself when there is none). -/
def splitHeadColon (s : String) : String :=
  String.mk (s.toList.takeWhile (fun c => c ≠ ':'))

/-- The pseudo suffix `css.js` splits off a class key during uglification
(`split = key.split(':'); split.shift(0); pseudo = ':' + split.join(':')`
when the key has a colon, `''` otherwise): the part of the key from its
first colon on. -/
def pseudoPart (s : String) : String :=
  if s.toList.contains ':' then String.mk (s.toList.dropWhile (fun c => c ≠ ':')) else ""

/-- The options object; the engine itself only forwards it, and the parser
wrapper reads `options.verbose`. -/
structure Options where
  verbose : Bool := false
deriving DecidableEq, Repr

/-- `removeIdenticalProperties`: per selector,
`classMap[selector] = Array.from(new Set(classMap[selector].reverse())).reverse()`.
`jsSetDedup` is JavaScript `Array.from(new Set(xs))`: each element once,
at its first occurrence, in order. -/
def jsSetDedup : List String → List String
  | [] => []
  | x :: xs => x :: (jsSetDedup xs).filter (fun y => y ≠ x)

/-- `removeIdenticalProperties` from `css.js`. -/
def removeIdenticalProperties (classMap : JsMap (List String)) : JsMap (List String) :=
  classMap.map (fun p => (p.1, (jsSetDedup p.2.reverse).reverse))

/-- `updateClassMap`: for each selector of the rule, push the pre-colon
part of the encoded class name onto the entry keyed by the pre-colon part
of the selector's `original` text. -/
def updateClassMap (classMap : JsMap (List String)) (selectors : List (List SelectorComponent))
    (encodedClassName : String) : JsMap (List String) :=
  selectors.foldl
    (fun cm selector =>
      let originalSelectorName := splitHeadColon selector.headI.original
      mapSet cm originalSelectorName
        ((mapGet cm originalSelectorName).getD [] ++ [splitHeadColon encodedClassName]))
    classMap

/-- `handleNonClasses`: copy a non-class rule into the new-rules table,
keyed by its first selector's original text. -/
def handleNonClasses (rule : Rule) (newRules : JsMap OutRule) : JsMap OutRule :=
  let originalSelectorName := rule.selectors.headI.headI.original
  mapSet newRules originalSelectorName
    { type := "rule", selectors := [[originalSelectorName]], declarations := rule.declarations }

/-- `recursivelyRemovePosition` on a declaration. -/
def removePositionDeclaration (d : Declaration) : Declaration := { d with position := none }

/-- `recursivelyRemovePosition` on a parsed rule. -/
def removePositionRule (r : Rule) : Rule :=
  { selectors := r.selectors, declarations := r.declarations.map removePositionDeclaration,
    position := none }

/-- `recursivelyRemovePosition` on a raw rule (as used in `css-parser.js`). -/
def removePositionRawRule (r : RawRule) : RawRule :=
  { selectors := r.selectors, declarations := r.declarations.map removePositionDeclaration,
    position := none }

/-- `recursivelyRemovePosition` on an emitted rule. -/
def removePositionOutRule (r : OutRule) : OutRule :=
  { r with declarations := r.declarations.map removePositionDeclaration }

/-- `recursivelyRemovePosition(newRules)` over the whole table. -/
def removePositionNewRules (m : JsMap OutRule) : JsMap OutRule :=
  m.map (fun p => (p.1, removePositionOutRule p.2))

/-- JavaScript `s.toUpperCase()` on the ASCII pseudo-class names in play:
uppercase each character. -/
def jsToUpperCase (s : String) : String :=
  String.mk (s.toList.map Char.toUpper)

/-- One iteration of the declaration loop in `css`: encode the
declaration, append the pseudo suffix when the selector's second component
is a pseudo-class, record the class-map entries and the atomic rule. -/
def atomizeDeclStep (encodeClassName : Options → Declaration → String) (options : Options)
    (rule : Rule) (st : JsMap (List String) × JsMap OutRule) (declaration : Declaration) :
    JsMap (List String) × JsMap OutRule :=
  let encoded := encodeClassName options declaration
  let encodedClassName :=
    match rule.selectors.headI[1]? with
    | some second =>
        if second.type = "pseudo" then
          encoded ++ "___-" ++ jsToUpperCase second.name ++ ":" ++ second.name
        else encoded
    | none => encoded
  let classMap := updateClassMap st.1 rule.selectors encodedClassName
  let newRules := mapSet st.2 encodedClassName
    { type := "rule", selectors := [[encodedClassName]], declarations := [declaration] }
  (classMap, newRules)

/-- The body of the rule loop in `css`: strip positions, classify by the
first selector component, then either pass the rule through or atomize its
declarations. -/
def processRule (encodeClassName : Options → Declaration → String) (options : Options)
    (st : JsMap (List String) × JsMap OutRule) (rule : Rule) :
    JsMap (List String) × JsMap OutRule :=
  let rule := removePositionRule rule
  let type := rule.selectors.headI.headI.type
  let name := rule.selectors.headI.headI.name
  if type = "tag" ∨ (type = "attribute" ∧ name ≠ "class") then
    (st.1, handleNonClasses rule st.2)
  else
    rule.declarations.foldl (atomizeDeclStep encodeClassName options rule) st

/-- `classMap[mapKey][indexOfKey] = result.name`: replace the first
occurrence of `target` (if any), as `indexOf` finds only the first. -/
def replaceFirst : List String → String → String → List String
  | [], _, _ => []
  | x :: xs, target, repl => if x = target then repl :: xs else x :: replaceFirst xs target repl

/-- `newRules[uglifiedName].selectors[0][0] = uglifiedName`. -/
def setFirstSelector (sels : List (List String)) (v : String) : List (List String) :=
  match sels with
  | [] => []
  | s :: rest =>
      (match s with
       | [] => []
       | _ :: t => v :: t) :: rest

/-- JavaScript `key.startsWith('.')`: whether the first character is the
class-selector marker. -/
def jsStartsWithDot (s : String) : Bool :=
  match s.toList with
  | [] => false
  | c :: _ => c = '.'

/-- One iteration of the uglification loop: a key that begins with the
class marker draws the next short token, the rule moves to
`token ++ pseudo` with its embedded selector rewritten, and the first
occurrence of the old base key in every class-map entry is replaced by the
bare token. -/
def uglifyStep (cssUglifier : Nat → String × Nat)
    (st : JsMap OutRule × JsMap (List String) × Nat) (key : String) :
    JsMap OutRule × JsMap (List String) × Nat :=
  if jsStartsWithDot key then
    let pseudo := pseudoPart key
    let result := cssUglifier st.2.2
    let uglifiedName := result.1 ++ pseudo
    let newRules :=
      match mapGet st.1 key with
      | some r =>
          mapDelete
            (mapSet st.1 uglifiedName
              { r with selectors := setFirstSelector r.selectors uglifiedName })
            key
      | none => st.1
    let classMap :=
      st.2.1.map (fun p => (p.1, replaceFirst p.2 (splitHeadColon key) result.1))
    (newRules, classMap, result.2)
  else st

/-- The uglification pass of `css`: fold `uglifyStep` over a snapshot of
the table's keys, carrying the counter from 0. -/
def uglifyPass (cssUglifier : Nat → String × Nat)
    (newRules : JsMap OutRule) (classMap : JsMap (List String)) :
    JsMap OutRule × JsMap (List String) × Nat :=
  (mapKeys newRules).foldl (uglifyStep cssUglifier) (newRules, classMap, 0)

/-- The atomization pipeline of `css` up to (but excluding) serialization:
parse, walk the rules, strip positions from the new table, deduplicate the
class map, optionally uglify.  `none` marks the parse-failure path.  The
second component collects the `(message, detail)` pairs handed to the
reporting hook.  Modelled from the spec: `helpers.throwError` (not among
these sources) forwards `(configuration, message, detail)` to the
caller-configured hook; we record the message/detail pairs.  A parser
throw (`Except.error`) is reported once with the error and once more with
the input, exactly as the `try`/`catch` plus `if (!parsed)` in `css.js`.
`cssRun` is the body of `css` from the point where the parse result is in
hand. -/
def cssRun (parsedResult : Except String (Option ParsedCss))
    (encodeClassName : Options → Declaration → String)
    (cssUglifier : Nat → String × Nat)
    (options : Options) (input : String) (uglify : Bool) :
    Option (JsMap (List String) × JsMap OutRule) × List (String × String) :=
  let reports : List (String × String) :=
    match parsedResult with
    | .error err => [("Error parsing CSS", err)]
    | .ok _ => []
  let parsed : Option ParsedCss :=
    match parsedResult with
    | .error _ => none
    | .ok p => p
  match parsed with
  | none => (none, reports ++ [("Error parsing CSS", input)])
  | some parsed =>
      let st := parsed.rules.foldl (processRule encodeClassName options) ([], [])
      let newRules := removePositionNewRules st.2
      let classMap := removeIdenticalProperties st.1
      if uglify then
        let res := uglifyPass cssUglifier newRules classMap
        (some (res.2.1, res.1), reports)
      else
        (some (classMap, newRules), reports)

def cssPipeline (cssParser : Options → String → Except String (Option ParsedCss))
    (encodeClassName : Options → Declaration → String)
    (cssUglifier : Nat → String × Nat)
    (options : Options) (input : String) (uglify : Bool) :
    Option (JsMap (List String) × JsMap OutRule) × List (String × String) :=
  cssRun (cssParser options input) encodeClassName cssUglifier options input uglify

/-- The `{classMap, output}` object returned by `css`. -/
structure CssResult where
  classMap : JsMap (List String)
  output : String
deriving DecidableEq, Repr

/-- `css(options, input, uglify)` with its collaborators passed
explicitly; alongside the returned `{classMap, output}` we carry the
reporting-hook calls made during the run. -/
def css (cssParser : Options → String → Except String (Option ParsedCss))
    (encodeClassName : Options → Declaration → String)
    (cssUglifier : Nat → String × Nat)
    (cssStringify : List OutRule → String)
    (options : Options) (input : String) (uglify : Bool) :
    CssResult × List (String × String) :=
  match cssPipeline cssParser encodeClassName cssUglifier options input uglify with
  | (none, reports) => ({ classMap := [], output := "" }, reports)
  | (some (classMap, newRules), reports) =>
      ({ classMap := classMap, output := cssStringify (newRules.map Prod.snd) }, reports)

/-- `css-parser.js` selector installation: parse the comma-joined selector
text and stamp the raw selector string on each first parsed component
(`parsedSelectors[i][0].original = rule.selectors[i]`). -/
def transformRuleSelectors (selectorParse : String → List (List SelectorComponent))
    (r : RawRule) : Rule :=
  let parsedSelectors := selectorParse (String.intercalate "," r.selectors)
  let annotated := parsedSelectors.mapIdx (fun i sel =>
    match sel with
    | [] => []
    | c :: rest => { c with original := r.selectors.getD i "" } :: rest)
  { selectors := annotated, declarations := r.declarations, position := r.position }

/-- `css-parser.js`, the variant that recursively strips position metadata
from the freshly parsed rules before decomposing the selectors.  A falsy
input returns `undefined` (`Except.ok none`); a raw-parser throw
propagates uncaught. -/
def cssParserStripping (cssParse : Bool → String → Except String RawParsed)
    (selectorParse : String → List (List SelectorComponent))
    (options : Options) (input : String) : Except String (Option ParsedCss) :=
  if input = "" then .ok none
  else
    match cssParse (!options.verbose) input with
    | .error e => .error e
    | .ok parsed =>
        .ok (some (ParsedCss.mk (parsed.rules.map
          (fun r => transformRuleSelectors selectorParse (removePositionRawRule r)))))

/-- `css-parser.js`, the variant that returns position metadata intact. -/
def cssParserDirect (cssParse : Bool → String → Except String RawParsed)
    (selectorParse : String → List (List SelectorComponent))
    (options : Options) (input : String) : Except String (Option ParsedCss) :=
  if input = "" then .ok none
  else
    match cssParse (!options.verbose) input with
    | .error e => .error e
    | .ok parsed =>
        .ok (some { rules := parsed.rules.map (transformRuleSelectors selectorParse) })

/-- Claim-side deduplication (spec §4.4): keep each value exactly once, at
its last occurrence, in input order. -/
def keepLast : List String → List String
  | [] => []
  | x :: xs => if x ∈ xs then keepLast xs else x :: keepLast xs

/-- Claim-side uglification rewrite of one class-map value: a value equal
to the base of the i-th class key becomes the i-th drawn token. -/
def claimedSubst (bases : List String) (cssUglifier : Nat → String × Nat) (v : String) : String :=
  match bases.findIdx? (fun b => b == v) with
  | some i => (cssUglifier i).1
  | none => v

/-- Claim-side uglification rewrite of the whole class map. -/
def claimedRewrite (bases : List String) (cssUglifier : Nat → String × Nat)
    (classMap : JsMap (List String)) : JsMap (List String) :=
  classMap.map (fun p => (p.1, p.2.map (claimedSubst bases cssUglifier)))

/-! ### Association-map lemmas -/

theorem mapGet_nil {α : Type} (k : String) : mapGet ([] : JsMap α) k = none := rfl

theorem mapGet_cons {α : Type} (p : String × α) (m : JsMap α) (k : String) :
    mapGet (p :: m) k = if p.1 = k then some p.2 else mapGet m k := rfl

theorem mapKeys_nil {α : Type} : mapKeys ([] : JsMap α) = [] := rfl

theorem mapKeys_cons {α : Type} (p : String × α) (m : JsMap α) :
    mapKeys (p :: m) = p.1 :: mapKeys m := rfl

theorem mapKeys_mapSet {α : Type} (m : JsMap α) (k : String) (v : α) :
    mapKeys (mapSet m k v) = if k ∈ mapKeys m then mapKeys m else mapKeys m ++ [k] := by
  induction m with
  | nil => simp [mapSet, mapKeys]
  | cons p rest ih =>
      by_cases hp : p.1 = k
      · simp [mapSet, hp, mapKeys_cons]
      · have hne : ¬ k = p.1 := fun hc => hp hc.symm
        simp only [mapSet, hp, if_false, mapKeys_cons, ih, List.mem_cons]
        by_cases hk : k ∈ mapKeys rest
        · simp [hk, hne]
        · simp [hk, hne]

theorem mem_mapKeys_mapSet_self {α : Type} (m : JsMap α) (k : String) (v : α) :
    k ∈ mapKeys (mapSet m k v) := by
  rw [mapKeys_mapSet]
  by_cases h : k ∈ mapKeys m
  · simp [h]
  · simp [h]

theorem mem_mapKeys_mapSet_of_mem {α : Type} (m : JsMap α) (k k' : String) (v : α)
    (h : k' ∈ mapKeys m) : k' ∈ mapKeys (mapSet m k v) := by
  rw [mapKeys_mapSet]
  by_cases hk : k ∈ mapKeys m
  · simpa [hk] using h
  · simp [hk, h]

theorem nodup_mapKeys_mapSet {α : Type} (m : JsMap α) (k : String) (v : α)
    (h : (mapKeys m).Nodup) : (mapKeys (mapSet m k v)).Nodup := by
  rw [mapKeys_mapSet]
  by_cases hk : k ∈ mapKeys m
  · simpa [hk] using h
  · simp [hk, List.nodup_append, h]

theorem mapGet_mapSet_self {α : Type} (m : JsMap α) (k : String) (v : α) :
    mapGet (mapSet m k v) k = some v := by
  induction m with
  | nil => simp [mapSet, mapGet]
  | cons p rest ih =>
      by_cases hp : p.1 = k
      · simp [mapSet, hp, mapGet_cons]
      · simp [mapSet, hp, mapGet_cons, ih]

theorem mapGet_mapSet_ne {α : Type} (m : JsMap α) (k k' : String) (v : α) (h : k' ≠ k) :
    mapGet (mapSet m k v) k' = mapGet m k' := by
  have h' : ¬ k = k' := fun hc => h hc.symm
  induction m with
  | nil => simp [mapSet, mapGet, h']
  | cons p rest ih =>
      by_cases hp : p.1 = k
      · simp [mapSet, hp, mapGet_cons, h']
      · by_cases hq : p.1 = k'
        · simp [mapSet, hp, mapGet_cons, hq, h]
        · simp [mapSet, hp, mapGet_cons, hq, ih]

theorem mapGet_mapSet_cases {α : Type} (m : JsMap α) (k k' : String) (v r : α)
    (h : mapGet (mapSet m k v) k' = some r) :
    (k' = k ∧ r = v) ∨ mapGet m k' = some r := by
  by_cases hk : k' = k
  · subst hk
    rw [mapGet_mapSet_self] at h
    exact Or.inl ⟨rfl, (Option.some_injective _ h).symm⟩
  · rw [mapGet_mapSet_ne m k k' v hk] at h
    exact Or.inr h

theorem mapGet_mapDelete_ne {α : Type} (m : JsMap α) (k k' : String) (h : k' ≠ k) :
    mapGet (mapDelete m k) k' = mapGet m k' := by
  have h' : ¬ k = k' := fun hc => h hc.symm
  induction m with
  | nil => rfl
  | cons p rest ih =>
      by_cases hp : p.1 = k
      · simp [mapDelete, hp, mapGet_cons, h', ih]
      · simp [mapDelete, hp, mapGet_cons, ih]

theorem mapGet_map_val {α β : Type} (f : α → β) (m : JsMap α) (k : String) :
    mapGet (m.map (fun p => (p.1, f p.2))) k = (mapGet m k).map f := by
  induction m with
  | nil => rfl
  | cons p rest ih =>
      by_cases hp : p.1 = k
      · simp [mapGet_cons, hp]
      · simp [mapGet_cons, hp, ih]

theorem mapKeys_map_val {α β : Type} (f : α → β) (m : JsMap α) :
    mapKeys (m.map (fun p => (p.1, f p.2))) = mapKeys m := by
  simp [mapKeys]

theorem mapGet_eq_none_of_not_mem {α : Type} (m : JsMap α) (k : String)
    (h : k ∉ mapKeys m) : mapGet m k = none := by
  induction m with
  | nil => rfl
  | cons p rest ih =>
      simp only [mapKeys_cons, List.mem_cons, not_or] at h
      have hp : ¬ p.1 = k := fun hc => h.1 hc.symm
      simp [mapGet_cons, hp, ih h.2]

/-! ### Deduplication: `removeIdenticalProperties` keeps last occurrences -/

theorem jsSetDedup_append_singleton (l : List String) (x : String) :
    jsSetDedup (l ++ [x]) = if x ∈ l then jsSetDedup l else jsSetDedup l ++ [x] := by
  induction l with
  | nil => simp [jsSetDedup]
  | cons a l ih =>
      have hstep : jsSetDedup ((a :: l) ++ [x])
          = a :: (jsSetDedup (l ++ [x])).filter (fun y => y ≠ a) := rfl
      rw [hstep, ih]
      by_cases hx : x ∈ l
      · have hm : x ∈ a :: l := List.mem_cons_of_mem _ hx
        rw [if_pos hx, if_pos hm]
        rfl
      · by_cases hxa : x = a
        · subst hxa
          have hm : x ∈ x :: l := List.mem_cons_self _ _
          rw [if_neg hx, if_pos hm, List.filter_append]
          simp [jsSetDedup]
        · have hm : x ∉ a :: l := by simp [hxa, hx]
          rw [if_neg hx, if_neg hm, List.filter_append]
          simp [jsSetDedup, hxa]

theorem jsSetDedup_reverse_eq_keepLast (xs : List String) :
    (jsSetDedup xs.reverse).reverse = keepLast xs := by
  induction xs with
  | nil => rfl
  | cons x xs ih =>
      rw [List.reverse_cons, jsSetDedup_append_singleton]
      by_cases hx : x ∈ xs
      · have hr : x ∈ xs.reverse := by simpa using hx
        rw [if_pos hr, ih]
        simp [keepLast, hx]
      · have hr : x ∉ xs.reverse := by simpa using hx
        rw [if_neg hr]
        simp only [List.reverse_append, List.reverse_cons, List.reverse_nil, List.nil_append,
          List.singleton_append, ih]
        simp [keepLast, hx]

theorem mem_keepLast (v : String) (xs : List String) : v ∈ keepLast xs ↔ v ∈ xs := by
  induction xs with
  | nil => simp [keepLast]
  | cons x xs ih =>
      by_cases hx : x ∈ xs
      · simp only [keepLast, if_pos hx, ih, List.mem_cons]
        constructor
        · exact fun h => Or.inr h
        · rintro (h | h)
          · rw [h]; exact hx
          · exact h
      · simp [keepLast, hx, ih]

theorem keepLast_nodup (xs : List String) : (keepLast xs).Nodup := by
  induction xs with
  | nil => simp [keepLast]
  | cons x xs ih =>
      by_cases hx : x ∈ xs
      · simpa [keepLast, hx] using ih
      · have : x ∉ keepLast xs := fun hc => hx ((mem_keepLast x xs).mp hc)
        simp [keepLast, hx, ih, this]

theorem keepLast_replicate (v : String) (n : Nat) :
    keepLast (List.replicate (n + 1) v) = [v] := by
  induction n with
  | zero => simp [keepLast]
  | succ n ih =>
      have hm : v ∈ List.replicate (n + 1) v := by simp
      calc keepLast (List.replicate (n + 2) v)
          = keepLast (v :: List.replicate (n + 1) v) := by rw [List.replicate_succ]
        _ = keepLast (List.replicate (n + 1) v) := by simp [keepLast, hm]
        _ = [v] := ih

theorem keepLast_of_nodup (xs : List String) (h : xs.Nodup) : keepLast xs = xs := by
  induction xs with
  | nil => rfl
  | cons x xs ih =>
      have hx : x ∉ xs := (List.nodup_cons.mp h).1
      simp [keepLast, hx, ih (List.nodup_cons.mp h).2]

/-- C1: `removeIdenticalProperties` replaces every selector's sequence by
the subsequence of last occurrences: each distinct value exactly once, at
the position of its last occurrence, in last-occurrence order (formalized
by `keepLast`); in particular the result is duplicate-free with the same
members, `n + 1` copies of one value collapse to a single entry, and an
already pairwise-distinct sequence is returned unchanged. -/
theorem dedup_last_occurrence_spec :
    (∀ classMap : JsMap (List String),
        removeIdenticalProperties classMap = classMap.map (fun p => (p.1, keepLast p.2)))
    ∧ (∀ xs : List String, (keepLast xs).Nodup ∧ ∀ v, v ∈ keepLast xs ↔ v ∈ xs)
    ∧ (∀ (v : String) (n : Nat), keepLast (List.replicate (n + 1) v) = [v])
    ∧ (∀ xs : List String, xs.Nodup → keepLast xs = xs) := by
  refine ⟨?_, ?_, keepLast_replicate, keepLast_of_nodup⟩
  · intro classMap
    unfold removeIdenticalProperties
    apply List.map_congr_left
    intro p _
    rw [jsSetDedup_reverse_eq_keepLast]
  · intro xs
    exact ⟨keepLast_nodup xs, fun v => mem_keepLast v xs⟩

/-- Witness for C1 at concrete inputs: a duplicated pair collapses to its
last occurrence, and a pairwise-distinct pair stays in source order. -/
theorem dedup_last_occurrence_spec_witness :
    removeIdenticalProperties [(".a", ["x", "y", "x"])] = [(".a", ["y", "x"])]
      ∧ keepLast ["a", "b"] = ["a", "b"] := by
  constructor
  · rw [dedup_last_occurrence_spec.1 [(".a", ["x", "y", "x"])]]
    decide
  · exact dedup_last_occurrence_spec.2.2.2 ["a", "b"] (by decide)

/-! ### Passthrough classification -/

/-- C3: a rule whose first selector component has kind `tag`, or kind
`attribute` with a name other than `class`, is copied through as a single
rule keyed by its original selector text carrying all of its (position
stripped) declarations; the class map is left untouched and no atomic
rule is emitted for it. -/
theorem passthrough_rule_spec
    (encodeClassName : Options → Declaration → String) (options : Options)
    (st : JsMap (List String) × JsMap OutRule) (rule : Rule)
    (h : rule.selectors.headI.headI.type = "tag" ∨
         (rule.selectors.headI.headI.type = "attribute"
           ∧ rule.selectors.headI.headI.name ≠ "class")) :
    processRule encodeClassName options st rule
      = (st.1, mapSet st.2 rule.selectors.headI.headI.original
          ⟨"rule", [[rule.selectors.headI.headI.original]],
            rule.declarations.map removePositionDeclaration⟩) := by
  have h' : (removePositionRule rule).selectors.headI.headI.type = "tag" ∨
      ((removePositionRule rule).selectors.headI.headI.type = "attribute"
        ∧ (removePositionRule rule).selectors.headI.headI.name ≠ "class") := h
  simp only [processRule]
  rw [if_pos h']
  rfl

/-- Witness for C3: a `div` rule passes through with its declarations and
adds nothing to the class map. -/
theorem passthrough_rule_spec_witness :
    processRule (fun _ d => d.property) {} ([], [])
        ⟨[[⟨"tag", "div", "div"⟩]], [⟨"color", "red", some ⟨1, 2⟩⟩], none⟩
      = ([], [("div", ⟨"rule", [["div"]], [⟨"color", "red", none⟩]⟩)]) := by
  rw [passthrough_rule_spec (fun _ d => d.property) {} ([], [])
      ⟨[[⟨"tag", "div", "div"⟩]], [⟨"color", "red", some ⟨1, 2⟩⟩], none⟩ (Or.inl rfl)]
  decide

/-! ### Determinism -/

/-- C8: with the collaborators fixed as pure functions, two calls of the
atomizer on identical configuration and input yield identical class maps
and identical outputs; no state persists between the calls. -/
theorem atomize_deterministic
    (cssParser : Options → String → Except String (Option ParsedCss))
    (encodeClassName : Options → Declaration → String)
    (cssUglifier : Nat → String × Nat) (cssStringify : List OutRule → String)
    (options : Options) (input : String)
    (r1 r2 : CssResult × List (String × String))
    (h1 : r1 = css cssParser encodeClassName cssUglifier cssStringify options input false)
    (h2 : r2 = css cssParser encodeClassName cssUglifier cssStringify options input false) :
    r1.1.classMap = r2.1.classMap ∧ r1.1.output = r2.1.output := by
  subst h1
  subst h2
  exact ⟨rfl, rfl⟩

/-- Witness for C8 at a concrete configuration and input. -/
theorem atomize_deterministic_witness :
    (css (fun _ _ => Except.ok none) (fun _ d => d.property) (fun i => ("", i)) (fun _ => "")
        {} ".a" false).1.classMap
      = (css (fun _ _ => Except.ok none) (fun _ d => d.property) (fun i => ("", i)) (fun _ => "")
        {} ".a" false).1.classMap :=
  (atomize_deterministic (fun _ _ => Except.ok none) (fun _ d => d.property) (fun i => ("", i))
    (fun _ => "") {} ".a" _ _ rfl rfl).1

/-! ### Parse-failure semantics -/

/-- C4: a falsy input makes both parser variants return a falsy AST, and
whenever the parser collaborator throws or returns a falsy AST the engine
reports the parse error through the reporting hook and returns exactly the
empty result with classMap `{}` and output `''`. -/
theorem parse_failure_empty_result :
    (∀ (cssParse : Bool → String → Except String RawParsed)
       (selectorParse : String → List (List SelectorComponent)) (options : Options),
        cssParserStripping cssParse selectorParse options "" = Except.ok none
          ∧ cssParserDirect cssParse selectorParse options "" = Except.ok none)
    ∧ (∀ (cssParser : Options → String → Except String (Option ParsedCss))
         (encodeClassName : Options → Declaration → String)
         (cssUglifier : Nat → String × Nat) (cssStringify : List OutRule → String)
         (options : Options) (input : String) (uglify : Bool),
        cssParser options input = Except.ok none →
        css cssParser encodeClassName cssUglifier cssStringify options input uglify
          = ({ classMap := [], output := "" }, [("Error parsing CSS", input)]))
    ∧ (∀ (cssParser : Options → String → Except String (Option ParsedCss))
         (encodeClassName : Options → Declaration → String)
         (cssUglifier : Nat → String × Nat) (cssStringify : List OutRule → String)
         (options : Options) (input : String) (uglify : Bool) (err : String),
        cssParser options input = Except.error err →
        css cssParser encodeClassName cssUglifier cssStringify options input uglify
          = ({ classMap := [], output := "" },
             [("Error parsing CSS", err), ("Error parsing CSS", input)])) := by
  refine ⟨?_, ?_, ?_⟩
  · intro cssParse selectorParse options
    constructor
    · simp [cssParserStripping]
    · simp [cssParserDirect]
  · intro cssParser encodeClassName cssUglifier cssStringify options input uglify h
    simp [css, cssPipeline, cssRun, h]
  · intro cssParser encodeClassName cssUglifier cssStringify options input uglify err h
    simp [css, cssPipeline, cssRun, h]

/-- Witness for C4: empty input with a falsy-returning parser, and a
throwing parser, both yield the empty result and a report. -/
theorem parse_failure_empty_result_witness :
    css (fun _ _ => Except.ok none) (fun _ d => d.property) (fun i => ("", i)) (fun _ => "x")
        {} "" false
      = ({ classMap := [], output := "" }, [("Error parsing CSS", "")])
    ∧ css (fun _ _ => Except.error "boom") (fun _ d => d.property) (fun i => ("", i))
        (fun _ => "x") {} ".a" true
      = ({ classMap := [], output := "" },
         [("Error parsing CSS", "boom"), ("Error parsing CSS", ".a")])
    ∧ cssParserStripping (fun _ _ => Except.ok ⟨[]⟩) (fun _ => []) {} "" = Except.ok none :=
  ⟨parse_failure_empty_result.2.1 _ _ _ _ {} "" false rfl,
   parse_failure_empty_result.2.2 _ _ _ _ {} ".a" true "boom" rfl,
   (parse_failure_empty_result.1 (fun _ _ => Except.ok ⟨[]⟩) (fun _ => []) {}).1⟩

/-! ### Parser-variant equivalence -/

theorem removePositionDeclaration_idem (d : Declaration) :
    removePositionDeclaration (removePositionDeclaration d) = removePositionDeclaration d := rfl

theorem removePositionRule_transform (selectorParse : String → List (List SelectorComponent))
    (r : RawRule) :
    removePositionRule (transformRuleSelectors selectorParse (removePositionRawRule r))
      = removePositionRule (transformRuleSelectors selectorParse r) := by
  unfold transformRuleSelectors removePositionRawRule removePositionRule
  simp only [List.map_map]
  have hc : removePositionDeclaration ∘ removePositionDeclaration = removePositionDeclaration :=
    funext (fun d => rfl)
  rw [hc]

theorem processRule_transform_strip (encodeClassName : Options → Declaration → String)
    (options : Options) (st : JsMap (List String) × JsMap OutRule)
    (selectorParse : String → List (List SelectorComponent)) (r : RawRule) :
    processRule encodeClassName options st
        (transformRuleSelectors selectorParse (removePositionRawRule r))
      = processRule encodeClassName options st (transformRuleSelectors selectorParse r) := by
  simp only [processRule]
  rw [removePositionRule_transform]

/-- C9: composing the engine with the parser variant that strips position
metadata before returning yields exactly the same class map and output as
composing it with the variant that returns positions intact — the engine
strips positions from every rule (and from the rebuilt table) itself. -/
theorem parser_variants_equivalent
    (cssParse : Bool → String → Except String RawParsed)
    (selectorParse : String → List (List SelectorComponent))
    (encodeClassName : Options → Declaration → String)
    (cssUglifier : Nat → String × Nat) (cssStringify : List OutRule → String)
    (options : Options) (input : String) (uglify : Bool) :
    css (cssParserStripping cssParse selectorParse) encodeClassName cssUglifier cssStringify
        options input uglify
      = css (cssParserDirect cssParse selectorParse) encodeClassName cssUglifier cssStringify
        options input uglify := by
  unfold css cssPipeline
  suffices h : cssRun (cssParserStripping cssParse selectorParse options input)
        encodeClassName cssUglifier options input uglify
      = cssRun (cssParserDirect cssParse selectorParse options input)
        encodeClassName cssUglifier options input uglify by
    rw [h]
  unfold cssParserStripping cssParserDirect
  by_cases hi : input = ""
  · rw [if_pos hi, if_pos hi]
  · rw [if_neg hi, if_neg hi]
    cases hp : cssParse (!options.verbose) input with
    | error e => rfl
    | ok parsed =>
        simp only [cssRun]
        rw [List.foldl_map, List.foldl_map]
        have hstep :
            (fun (st : JsMap (List String) × JsMap OutRule) r =>
                processRule encodeClassName options st
                  (transformRuleSelectors selectorParse (removePositionRawRule r)))
              = (fun st r =>
                  processRule encodeClassName options st
                    (transformRuleSelectors selectorParse r)) := by
          funext st r
          exact processRule_transform_strip encodeClassName options st selectorParse r
        rw [hstep]

/-! ### Atomic keys emitted by the declaration loop -/

/-- The final new-rules key computed for one declaration by the
declaration loop of `css` (encoding plus optional pseudo suffix). -/
def atomizedKeyName (encodeClassName : Options → Declaration → String) (options : Options)
    (rule : Rule) (declaration : Declaration) : String :=
  let encoded := encodeClassName options declaration
  match rule.selectors.headI[1]? with
  | some second =>
      if second.type = "pseudo" then
        encoded ++ "___-" ++ jsToUpperCase second.name ++ ":" ++ second.name
      else encoded
  | none => encoded

theorem atomizeDeclStep_snd (encodeClassName : Options → Declaration → String)
    (options : Options) (rule : Rule) (st : JsMap (List String) × JsMap OutRule)
    (d : Declaration) :
    (atomizeDeclStep encodeClassName options rule st d).2
      = mapSet st.2 (atomizedKeyName encodeClassName options rule d)
          ⟨"rule", [[atomizedKeyName encodeClassName options rule d]], [d]⟩ := rfl

theorem atomizeDeclStep_eq (encodeClassName : Options → Declaration → String)
    (options : Options) (rule : Rule) (st : JsMap (List String) × JsMap OutRule)
    (d : Declaration) :
    atomizeDeclStep encodeClassName options rule st d
      = (updateClassMap st.1 rule.selectors (atomizedKeyName encodeClassName options rule d),
         mapSet st.2 (atomizedKeyName encodeClassName options rule d)
           ⟨"rule", [[atomizedKeyName encodeClassName options rule d]], [d]⟩) := rfl

theorem mem_keys_atomize_fold_mono (encodeClassName : Options → Declaration → String)
    (options : Options) (rule : Rule) (ds : List Declaration)
    (st : JsMap (List String) × JsMap OutRule) (k : String)
    (hk : k ∈ mapKeys st.2) :
    k ∈ mapKeys ((ds.foldl (atomizeDeclStep encodeClassName options rule) st)).2 := by
  induction ds generalizing st with
  | nil => exact hk
  | cons d ds ih =>
      rw [List.foldl_cons]
      apply ih
      rw [atomizeDeclStep_snd]
      exact mem_mapKeys_mapSet_of_mem _ _ _ _ hk

theorem mem_keys_atomize_fold (encodeClassName : Options → Declaration → String)
    (options : Options) (rule : Rule) (ds : List Declaration)
    (st : JsMap (List String) × JsMap OutRule) (d : Declaration) (hd : d ∈ ds) :
    atomizedKeyName encodeClassName options rule d
      ∈ mapKeys ((ds.foldl (atomizeDeclStep encodeClassName options rule) st)).2 := by
  induction ds generalizing st with
  | nil => cases hd
  | cons d0 ds ih =>
      rw [List.foldl_cons]
      rcases List.mem_cons.mp hd with h | h
      · subst h
        apply mem_keys_atomize_fold_mono
        rw [atomizeDeclStep_snd]
        exact mem_mapKeys_mapSet_self _ _ _
      · exact ih _ h

/-- C7: for a class-targeted rule whose selector's second component has
kind pseudo, the new-rules key emitted for each declaration is the base
encoded name followed by the `___-` marker, the uppercased pseudo name, a
colon, and the original-case pseudo name. -/
theorem pseudo_key_formula (encodeClassName : Options → Declaration → String)
    (options : Options) (st : JsMap (List String) × JsMap OutRule) (rule : Rule)
    (c0 c1 : SelectorComponent) (rest : List SelectorComponent)
    (hsel : rule.selectors.headI = c0 :: c1 :: rest)
    (hng : ¬ (c0.type = "tag" ∨ (c0.type = "attribute" ∧ c0.name ≠ "class")))
    (hp : c1.type = "pseudo") :
    ∀ d ∈ rule.declarations,
      (encodeClassName options (removePositionDeclaration d)
          ++ "___-" ++ jsToUpperCase c1.name ++ ":" ++ c1.name)
        ∈ mapKeys (processRule encodeClassName options st rule).2 := by
  intro d hd
  have e1 : (removePositionRule rule).selectors.headI.headI = c0 := by
    show rule.selectors.headI.headI = c0
    rw [hsel]
    rfl
  have hcond : ¬ ((removePositionRule rule).selectors.headI.headI.type = "tag" ∨
      ((removePositionRule rule).selectors.headI.headI.type = "attribute" ∧
        (removePositionRule rule).selectors.headI.headI.name ≠ "class")) := by
    rw [e1]
    exact hng
  simp only [processRule]
  rw [if_neg hcond]
  have hd' : removePositionDeclaration d ∈ (removePositionRule rule).declarations :=
    List.mem_map_of_mem _ hd
  have hmem := mem_keys_atomize_fold encodeClassName options (removePositionRule rule) _ st _ hd'
  have hkey : atomizedKeyName encodeClassName options (removePositionRule rule)
        (removePositionDeclaration d)
      = encodeClassName options (removePositionDeclaration d)
          ++ "___-" ++ jsToUpperCase c1.name ++ ":" ++ c1.name := by
    unfold atomizedKeyName
    have e2 : (removePositionRule rule).selectors.headI = c0 :: c1 :: rest := hsel
    rw [e2]
    simp [hp]
  rw [hkey] at hmem
  exact hmem

/-- Witness for C7: `.a:hover { color: red }` emits the key
`.rp-color___-HOVER:hover`. -/
theorem pseudo_key_formula_witness :
    ".rp-color___-HOVER:hover"
      ∈ mapKeys (processRule (fun _ d => ".rp-" ++ d.property) {} ([], [])
          ⟨[[⟨"attribute", "class", ".a:hover"⟩, ⟨"pseudo", "hover", ""⟩]],
            [⟨"color", "red", none⟩], none⟩).2 := by
  have h := pseudo_key_formula (fun _ d => ".rp-" ++ d.property) {} ([], [])
      ⟨[[⟨"attribute", "class", ".a:hover"⟩, ⟨"pseudo", "hover", ""⟩]],
        [⟨"color", "red", none⟩], none⟩
      ⟨"attribute", "class", ".a:hover"⟩ ⟨"pseudo", "hover", ""⟩ [] rfl (by decide) rfl
      ⟨"color", "red", none⟩ (by decide)
  have he : (fun (_ : Options) (d : Declaration) => ".rp-" ++ d.property) {}
        (removePositionDeclaration ⟨"color", "red", none⟩)
        ++ "___-" ++ jsToUpperCase "hover" ++ ":" ++ "hover"
      = ".rp-color___-HOVER:hover" := by decide
  rw [he] at h
  exact h

/-! ### Later passthrough rule overwrites an earlier one with the same text -/

/-- C10: of two passthrough rules whose first selectors carry the same
original text, only the later survives: the table (and hence the rule list
handed to the serializer) holds exactly one rule under that text, with the
later rule's declarations, and the earlier rule's declarations are gone. -/
theorem passthrough_later_wins
    (encodeClassName : Options → Declaration → String) (cssUglifier : Nat → String × Nat)
    (options : Options) (input : String) (r1 r2 : Rule)
    (h1 : r1.selectors.headI.headI.type = "tag" ∨
      (r1.selectors.headI.headI.type = "attribute" ∧ r1.selectors.headI.headI.name ≠ "class"))
    (h2 : r2.selectors.headI.headI.type = "tag" ∨
      (r2.selectors.headI.headI.type = "attribute" ∧ r2.selectors.headI.headI.name ≠ "class"))
    (ho : r2.selectors.headI.headI.original = r1.selectors.headI.headI.original) :
    cssPipeline (fun _ _ => Except.ok (some ⟨[r1, r2]⟩)) encodeClassName cssUglifier
        options input false
      = (some ([], [(r1.selectors.headI.headI.original,
          ⟨"rule", [[r1.selectors.headI.headI.original]],
            r2.declarations.map removePositionDeclaration⟩)]), []) := by
  unfold cssPipeline
  simp only [cssRun]
  rw [List.foldl_cons, List.foldl_cons, List.foldl_nil]
  rw [passthrough_rule_spec encodeClassName options ([], []) r1 h1]
  rw [passthrough_rule_spec encodeClassName options _ r2 h2]
  rw [ho]
  have hc : removePositionDeclaration ∘ removePositionDeclaration = removePositionDeclaration :=
    funext (fun d => rfl)
  simp [mapSet, removePositionNewRules, removePositionOutRule, removeIdenticalProperties,
    List.map_map, hc]

/-- Witness for C10: two `div` rules; only the later one's declaration
survives in the table. -/
theorem passthrough_later_wins_witness :
    cssPipeline (fun _ _ => Except.ok (some ⟨[
        ⟨[[⟨"tag", "div", "div"⟩]], [⟨"color", "red", none⟩], none⟩,
        ⟨[[⟨"tag", "div", "div"⟩]], [⟨"margin", "0", none⟩], none⟩]⟩))
        (fun _ d => d.property) (fun i => ("", i)) {} ".x" false
      = (some ([], [("div", ⟨"rule", [["div"]], [⟨"margin", "0", none⟩]⟩)]), []) := by
  rw [passthrough_later_wins (fun _ d => d.property) (fun i => ("", i)) {} ".x"
      ⟨[[⟨"tag", "div", "div"⟩]], [⟨"color", "red", none⟩], none⟩
      ⟨[[⟨"tag", "div", "div"⟩]], [⟨"margin", "0", none⟩], none⟩
      (Or.inl rfl) (Or.inl rfl) rfl]
  decide

/-! ### Pseudo-class handling and the class map -/

theorem string_mk_toList (s : String) : String.mk s.toList = s := rfl

theorem takeWhile_until_colon (l r : List Char) (h : ∀ c ∈ l, c ≠ ':') :
    (l ++ ':' :: r).takeWhile (fun c => c ≠ ':') = l := by
  induction l with
  | nil =>
      rw [List.nil_append, List.takeWhile_cons, if_neg (by simp)]
  | cons c l ih =>
      rw [List.cons_append, List.takeWhile_cons,
        if_pos (by simp [h c (List.mem_cons_self c l)]),
        ih (fun x hm => h x (List.mem_cons_of_mem _ hm))]

theorem takeWhile_no_colon (l : List Char) (h : ∀ c ∈ l, c ≠ ':') :
    l.takeWhile (fun c => c ≠ ':') = l := by
  induction l with
  | nil => rfl
  | cons c l ih =>
      rw [List.takeWhile_cons, if_pos (by simp [h c (List.mem_cons_self c l)]),
        ih (fun x hm => h x (List.mem_cons_of_mem _ hm))]

theorem splitHeadColon_append_colon (a b : String) (ha : ':' ∉ a.toList) :
    splitHeadColon (a ++ ":" ++ b) = a := by
  unfold splitHeadColon
  have hcolon : (":" : String).data = [':'] := by decide
  have h1 : (a ++ ":" ++ b).toList = a.toList ++ ':' :: b.toList := by
    show (a ++ ":" ++ b).data = a.data ++ ':' :: b.data
    rw [String.data_append, String.data_append, hcolon, List.append_assoc]
    rfl
  rw [h1, takeWhile_until_colon a.toList b.toList (fun c hm hc => ha (hc ▸ hm))]
  exact string_mk_toList a

theorem splitHeadColon_of_no_colon (a : String) (ha : ':' ∉ a.toList) :
    splitHeadColon a = a := by
  unfold splitHeadColon
  rw [takeWhile_no_colon a.toList (fun c hm hc => ha (hc ▸ hm))]
  exact string_mk_toList a

/-- C2 counterexample: for `.a:hover { color: red }` the class-map entry
under `.a` is the encoded name with the pseudo marker `___-HOVER` still
attached — not the bare base encoded name the claim requires. -/
theorem pseudo_classmap_counterexample :
    (css (fun _ _ => Except.ok (some ⟨[⟨[[⟨"attribute", "class", ".a:hover"⟩,
            ⟨"pseudo", "hover", ""⟩]], [⟨"color", "red", none⟩], none⟩]⟩))
        (fun _ d => ".rp__" ++ d.property ++ "__--COLON" ++ d.value)
        (fun i => (".u", i + 1)) (fun _ => "") {} ".a:hover { color: red }" false).1.classMap
      = [(".a", [".rp__color__--COLONred___-HOVER"])]
    ∧ (fun (_ : Options) (d : Declaration) => ".rp__" ++ d.property ++ "__--COLON" ++ d.value)
        {} ⟨"color", "red", none⟩ = ".rp__color__--COLONred"
    ∧ [".rp__color__--COLONred___-HOVER"] ≠ [".rp__color__--COLONred"] := by
  refine ⟨by decide, by decide, by decide⟩

/-- C2 as amended: for a class-targeted rule with a pseudo second
component, the class map (under the pre-colon part of the selector text)
stores the emitted name truncated at its first colon — the base encoded
name with the pseudo marker and uppercased pseudo name still attached but
without the `:pseudo` suffix — while the emitted atomic rule sits under,
and carries in its selector, the full pseudo-suffixed name. -/
theorem pseudo_classmap_amended
    (encodeClassName : Options → Declaration → String) (cssUglifier : Nat → String × Nat)
    (options : Options) (input : String) (c0 c1 : SelectorComponent) (d : Declaration)
    (ppos : Option Pos)
    (h0t : c0.type = "attribute") (h0n : c0.name = "class") (h1 : c1.type = "pseudo")
    (hcEnc : ':' ∉ (encodeClassName options (removePositionDeclaration d)).toList)
    (hcUp : ':' ∉ (jsToUpperCase c1.name).toList) :
    cssPipeline (fun _ _ => Except.ok (some ⟨[⟨[[c0, c1]], [d], ppos⟩]⟩))
        encodeClassName cssUglifier options input false
      = (some ([(splitHeadColon c0.original,
            [encodeClassName options (removePositionDeclaration d)
              ++ "___-" ++ jsToUpperCase c1.name])],
          [(encodeClassName options (removePositionDeclaration d)
              ++ "___-" ++ jsToUpperCase c1.name ++ ":" ++ c1.name,
            ⟨"rule", [[encodeClassName options (removePositionDeclaration d)
              ++ "___-" ++ jsToUpperCase c1.name ++ ":" ++ c1.name]],
              [removePositionDeclaration d]⟩)]), []) := by
  have hfree : ':' ∉ (encodeClassName options (removePositionDeclaration d) ++ "___-"
      ++ jsToUpperCase c1.name).toList := by
    intro hc
    have hdata : (encodeClassName options (removePositionDeclaration d) ++ "___-"
        ++ jsToUpperCase c1.name).toList
        = (encodeClassName options (removePositionDeclaration d)).toList
          ++ (("___-" : String).toList ++ (jsToUpperCase c1.name).toList) := by
      show (encodeClassName options (removePositionDeclaration d) ++ "___-"
        ++ jsToUpperCase c1.name).data = _
      rw [String.data_append, String.data_append, List.append_assoc]
      rfl
    rw [hdata] at hc
    rcases List.mem_append.mp hc with h | h
    · exact hcEnc h
    · rcases List.mem_append.mp h with h | h
      · revert h
        decide
      · exact hcUp h
  have hsplit := splitHeadColon_append_colon
    (encodeClassName options (removePositionDeclaration d) ++ "___-" ++ jsToUpperCase c1.name)
    c1.name hfree
  have hcond : ¬ ((removePositionRule (⟨[[c0, c1]], [d], ppos⟩ : Rule)).selectors.headI.headI.type
        = "tag" ∨
      ((removePositionRule (⟨[[c0, c1]], [d], ppos⟩ : Rule)).selectors.headI.headI.type
          = "attribute"
        ∧ (removePositionRule (⟨[[c0, c1]], [d], ppos⟩ : Rule)).selectors.headI.headI.name
          ≠ "class")) := by
    show ¬ (c0.type = "tag" ∨ (c0.type = "attribute" ∧ c0.name ≠ "class"))
    rw [h0t, h0n]
    simp
  have hstep : processRule encodeClassName options
        (([] : JsMap (List String)), ([] : JsMap OutRule)) ⟨[[c0, c1]], [d], ppos⟩
      = ([(splitHeadColon c0.original,
            [encodeClassName options (removePositionDeclaration d)
              ++ "___-" ++ jsToUpperCase c1.name])],
         [(encodeClassName options (removePositionDeclaration d)
              ++ "___-" ++ jsToUpperCase c1.name ++ ":" ++ c1.name,
            ⟨"rule", [[encodeClassName options (removePositionDeclaration d)
              ++ "___-" ++ jsToUpperCase c1.name ++ ":" ++ c1.name]],
              [removePositionDeclaration d]⟩)]) := by
    have hkey : atomizedKeyName encodeClassName options
          (removePositionRule ⟨[[c0, c1]], [d], ppos⟩) (removePositionDeclaration d)
        = encodeClassName options (removePositionDeclaration d)
            ++ "___-" ++ jsToUpperCase c1.name ++ ":" ++ c1.name := by
      show (if c1.type = "pseudo" then
          encodeClassName options (removePositionDeclaration d)
            ++ "___-" ++ jsToUpperCase c1.name ++ ":" ++ c1.name
        else encodeClassName options (removePositionDeclaration d)) = _
      rw [if_pos h1]
    simp only [processRule]
    rw [if_neg hcond]
    show List.foldl
        (atomizeDeclStep encodeClassName options (removePositionRule ⟨[[c0, c1]], [d], ppos⟩))
        ([], []) [removePositionDeclaration d] = _
    rw [List.foldl_cons, List.foldl_nil, atomizeDeclStep_eq, hkey]
    rw [show (removePositionRule (⟨[[c0, c1]], [d], ppos⟩ : Rule)).selectors = [[c0, c1]]
        from rfl]
    simp only [updateClassMap, List.foldl_cons, List.foldl_nil]
    rw [show ([c0, c1] : List SelectorComponent).headI = c0 from rfl]
    simp only [mapGet, Option.getD_none, mapSet, List.nil_append]
    rw [hsplit]
  unfold cssPipeline
  simp only [cssRun, List.foldl_cons, List.foldl_nil, hstep]
  simp only [removePositionNewRules, removePositionOutRule, removeIdenticalProperties,
    List.map_cons, List.map_nil, List.reverse_cons, List.reverse_nil, List.nil_append,
    jsSetDedup, List.filter_nil]
  rfl

/-- Witness for the amended C2 at `.a:hover { color: red }` with a
concrete encoder. -/
theorem pseudo_classmap_amended_witness :
    cssPipeline (fun _ _ => Except.ok (some ⟨[⟨[[⟨"attribute", "class", ".a:hover"⟩,
          ⟨"pseudo", "hover", ""⟩]], [⟨"color", "red", none⟩], none⟩]⟩))
        (fun _ d => ".rp__" ++ d.property ++ "__--COLON" ++ d.value)
        (fun i => (".u", i + 1)) {} ".a:hover { color: red }" false
      = (some ([(".a", [".rp__color__--COLONred___-HOVER"])],
          [(".rp__color__--COLONred___-HOVER:hover",
            ⟨"rule", [[".rp__color__--COLONred___-HOVER:hover"]],
              [⟨"color", "red", none⟩]⟩)]), []) := by
  rw [pseudo_classmap_amended (fun _ d => ".rp__" ++ d.property ++ "__--COLON" ++ d.value)
      (fun i => (".u", i + 1)) {} ".a:hover { color: red }"
      ⟨"attribute", "class", ".a:hover"⟩ ⟨"pseudo", "hover", ""⟩ ⟨"color", "red", none⟩ none
      rfl rfl rfl (by decide) (by decide)]
  decide

/-! ### Shared encoding: infrastructure -/

theorem atomizeDeclStep_fst (encodeClassName : Options → Declaration → String)
    (options : Options) (rule : Rule) (st : JsMap (List String) × JsMap OutRule)
    (d : Declaration) :
    (atomizeDeclStep encodeClassName options rule st d).1
      = updateClassMap st.1 rule.selectors (atomizedKeyName encodeClassName options rule d) := rfl

theorem handleNonClasses_eq (rule : Rule) (newRules : JsMap OutRule) :
    handleNonClasses rule newRules
      = mapSet newRules rule.selectors.headI.headI.original
          ⟨"rule", [[rule.selectors.headI.headI.original]], rule.declarations⟩ := rfl

theorem updateClassMap_nil (cm : JsMap (List String)) (e : String) :
    updateClassMap cm [] e = cm := rfl

theorem updateClassMap_cons (cm : JsMap (List String)) (s : List SelectorComponent)
    (ss : List (List SelectorComponent)) (e : String) :
    updateClassMap cm (s :: ss) e
      = updateClassMap (mapSet cm (splitHeadColon s.headI.original)
          ((mapGet cm (splitHeadColon s.headI.original)).getD []
            ++ [splitHeadColon e])) ss e := rfl

theorem entry_mono_push (cm : JsMap (List String)) (k0 x k : String) (v : String)
    (h : v ∈ (mapGet cm k).getD []) :
    v ∈ (mapGet (mapSet cm k0 ((mapGet cm k0).getD [] ++ [x])) k).getD [] := by
  by_cases hk : k = k0
  · subst hk
    rw [mapGet_mapSet_self]
    simp only [Option.getD_some]
    exact List.mem_append_left _ h
  · rw [mapGet_mapSet_ne _ _ _ _ hk]
    exact h

theorem entry_push_self (cm : JsMap (List String)) (k0 x : String) :
    x ∈ (mapGet (mapSet cm k0 ((mapGet cm k0).getD [] ++ [x])) k0).getD [] := by
  rw [mapGet_mapSet_self]
  simp

theorem entry_mono_updateClassMap (cm : JsMap (List String))
    (sels : List (List SelectorComponent)) (e k v : String)
    (h : v ∈ (mapGet cm k).getD []) :
    v ∈ (mapGet (updateClassMap cm sels e) k).getD [] := by
  induction sels generalizing cm with
  | nil => exact h
  | cons s ss ih =>
      rw [updateClassMap_cons]
      exact ih _ (entry_mono_push cm _ _ k v h)

theorem updateClassMap_pushes (cm : JsMap (List String))
    (sels : List (List SelectorComponent)) (sel : List SelectorComponent) (e : String)
    (hsel : sel ∈ sels) :
    splitHeadColon e
      ∈ (mapGet (updateClassMap cm sels e) (splitHeadColon sel.headI.original)).getD [] := by
  induction sels generalizing cm with
  | nil => cases hsel
  | cons s ss ih =>
      rw [updateClassMap_cons]
      rcases List.mem_cons.mp hsel with h | h
      · subst h
        exact entry_mono_updateClassMap _ ss e _ _ (entry_push_self cm _ _)
      · exact ih _ h

theorem entry_mono_atomize_fold (encodeClassName : Options → Declaration → String)
    (options : Options) (rule : Rule) (ds : List Declaration)
    (st : JsMap (List String) × JsMap OutRule) (k v : String)
    (h : v ∈ (mapGet st.1 k).getD []) :
    v ∈ (mapGet ((ds.foldl (atomizeDeclStep encodeClassName options rule) st)).1 k).getD [] := by
  induction ds generalizing st with
  | nil => exact h
  | cons d ds ih =>
      rw [List.foldl_cons]
      apply ih
      rw [atomizeDeclStep_fst]
      exact entry_mono_updateClassMap _ _ _ _ _ h

theorem atomize_fold_pushes (encodeClassName : Options → Declaration → String)
    (options : Options) (rule : Rule) (ds : List Declaration)
    (st : JsMap (List String) × JsMap OutRule) (d : Declaration)
    (sel : List SelectorComponent) (hd : d ∈ ds) (hsel : sel ∈ rule.selectors) :
    splitHeadColon (atomizedKeyName encodeClassName options rule d)
      ∈ (mapGet ((ds.foldl (atomizeDeclStep encodeClassName options rule) st)).1
          (splitHeadColon sel.headI.original)).getD [] := by
  induction ds generalizing st with
  | nil => cases hd
  | cons d0 ds ih =>
      rw [List.foldl_cons]
      rcases List.mem_cons.mp hd with h | h
      · subst h
        apply entry_mono_atomize_fold
        rw [atomizeDeclStep_fst]
        exact updateClassMap_pushes _ _ _ _ hsel
      · exact ih _ h

theorem nodup_keys_atomize_fold (encodeClassName : Options → Declaration → String)
    (options : Options) (rule : Rule) (ds : List Declaration)
    (st : JsMap (List String) × JsMap OutRule) (h : (mapKeys st.2).Nodup) :
    (mapKeys ((ds.foldl (atomizeDeclStep encodeClassName options rule) st)).2).Nodup := by
  induction ds generalizing st with
  | nil => exact h
  | cons d ds ih =>
      rw [List.foldl_cons]
      apply ih
      rw [atomizeDeclStep_snd]
      exact nodup_mapKeys_mapSet _ _ _ h

theorem nodup_keys_processRule (encodeClassName : Options → Declaration → String)
    (options : Options) (st : JsMap (List String) × JsMap OutRule) (rule : Rule)
    (h : (mapKeys st.2).Nodup) :
    (mapKeys (processRule encodeClassName options st rule).2).Nodup := by
  simp only [processRule]
  by_cases hcond : ((removePositionRule rule).selectors.headI.headI.type = "tag" ∨
      ((removePositionRule rule).selectors.headI.headI.type = "attribute"
        ∧ (removePositionRule rule).selectors.headI.headI.name ≠ "class"))
  · rw [if_pos hcond]
    show (mapKeys (handleNonClasses (removePositionRule rule) st.2)).Nodup
    rw [handleNonClasses_eq]
    exact nodup_mapKeys_mapSet _ _ _ h
  · rw [if_neg hcond]
    exact nodup_keys_atomize_fold _ _ _ _ _ h

theorem mem_keys_processRule_mono (encodeClassName : Options → Declaration → String)
    (options : Options) (st : JsMap (List String) × JsMap OutRule) (rule : Rule) (k : String)
    (hk : k ∈ mapKeys st.2) :
    k ∈ mapKeys (processRule encodeClassName options st rule).2 := by
  simp only [processRule]
  by_cases hcond : ((removePositionRule rule).selectors.headI.headI.type = "tag" ∨
      ((removePositionRule rule).selectors.headI.headI.type = "attribute"
        ∧ (removePositionRule rule).selectors.headI.headI.name ≠ "class"))
  · rw [if_pos hcond]
    show k ∈ mapKeys (handleNonClasses (removePositionRule rule) st.2)
    rw [handleNonClasses_eq]
    exact mem_mapKeys_mapSet_of_mem _ _ _ _ hk
  · rw [if_neg hcond]
    exact mem_keys_atomize_fold_mono _ _ _ _ _ _ hk

theorem entry_mono_processRule (encodeClassName : Options → Declaration → String)
    (options : Options) (st : JsMap (List String) × JsMap OutRule) (rule : Rule) (k v : String)
    (h : v ∈ (mapGet st.1 k).getD []) :
    v ∈ (mapGet (processRule encodeClassName options st rule).1 k).getD [] := by
  simp only [processRule]
  by_cases hcond : ((removePositionRule rule).selectors.headI.headI.type = "tag" ∨
      ((removePositionRule rule).selectors.headI.headI.type = "attribute"
        ∧ (removePositionRule rule).selectors.headI.headI.name ≠ "class"))
  · rw [if_pos hcond]
    exact h
  · rw [if_neg hcond]
    exact entry_mono_atomize_fold _ _ _ _ _ _ _ h

theorem processRule_class (encodeClassName : Options → Declaration → String)
    (options : Options) (st : JsMap (List String) × JsMap OutRule) (rule : Rule)
    (hng : ¬ (rule.selectors.headI.headI.type = "tag" ∨
      (rule.selectors.headI.headI.type = "attribute"
        ∧ rule.selectors.headI.headI.name ≠ "class"))) :
    processRule encodeClassName options st rule
      = (removePositionRule rule).declarations.foldl
          (atomizeDeclStep encodeClassName options (removePositionRule rule)) st := by
  have hcond : ¬ ((removePositionRule rule).selectors.headI.headI.type = "tag" ∨
      ((removePositionRule rule).selectors.headI.headI.type = "attribute"
        ∧ (removePositionRule rule).selectors.headI.headI.name ≠ "class")) := hng
  simp only [processRule]
  rw [if_neg hcond]

theorem atomic_shape_fold (encodeClassName : Options → Declaration → String)
    (options : Options) (rule : Rule) (ds : List Declaration)
    (st : JsMap (List String) × JsMap OutRule)
    (h : ∀ k r, mapGet st.2 k = some r → r.selectors = [[k]] ∧ ∃ d0, r.declarations = [d0]) :
    ∀ k r, mapGet ((ds.foldl (atomizeDeclStep encodeClassName options rule) st)).2 k = some r →
      r.selectors = [[k]] ∧ ∃ d0, r.declarations = [d0] := by
  induction ds generalizing st with
  | nil => exact h
  | cons d ds ih =>
      rw [List.foldl_cons]
      apply ih
      intro k r hget
      rw [atomizeDeclStep_snd] at hget
      rcases mapGet_mapSet_cases _ _ _ _ _ hget with ⟨hk, hr⟩ | hold
      · subst hk
        subst hr
        exact ⟨rfl, d, rfl⟩
      · exact h k r hold

theorem mapGet_removeIdenticalProperties (cm : JsMap (List String)) (k : String) :
    mapGet (removeIdenticalProperties cm) k
      = (mapGet cm k).map (fun l => (jsSetDedup l.reverse).reverse) := by
  induction cm with
  | nil => rfl
  | cons p rest ih =>
      by_cases hp : p.1 = k
      · simp [removeIdenticalProperties, mapGet_cons, hp]
      · simp only [removeIdenticalProperties, List.map_cons] at ih ⊢
        simp [mapGet_cons, hp, ih]

theorem mem_entry_dedup (cm : JsMap (List String)) (k v : String)
    (h : v ∈ (mapGet cm k).getD []) :
    v ∈ (mapGet (removeIdenticalProperties cm) k).getD [] := by
  rw [mapGet_removeIdenticalProperties]
  cases ho : mapGet cm k with
  | none =>
      rw [ho] at h
      simp at h
  | some l =>
      rw [ho] at h
      simp only [Option.map_some', Option.getD_some] at h ⊢
      rw [jsSetDedup_reverse_eq_keepLast]
      exact (mem_keepLast v l).mpr h

/-- C5: two class-targeted rules with different single-component selectors
and no pseudo components that both declare an identical property/value
pair (with a deterministic, colon-free encoder) produce exactly one shared
atomic rule in the table handed to the serializer, under the single
encoded name, and both selectors' class-map entries contain that encoded
name. -/
theorem shared_encoding_collapse
    (encodeClassName : Options → Declaration → String) (cssUglifier : Nat → String × Nat)
    (options : Options) (input : String)
    (c1 c2 : SelectorComponent) (ds1 ds2 : List Declaration) (p1 p2 : Option Pos)
    (d1 d2 : Declaration)
    (Hdet : ∀ (o : Options) (d d' : Declaration), d.property = d'.property →
      d.value = d'.value → encodeClassName o d = encodeClassName o d')
    (h1t : c1.type = "attribute") (h1n : c1.name = "class")
    (h2t : c2.type = "attribute") (h2n : c2.name = "class")
    (_hdiff : c1.original ≠ c2.original)
    (hd1 : d1 ∈ ds1) (hd2 : d2 ∈ ds2)
    (hp : d1.property = d2.property) (hv : d1.value = d2.value)
    (hc : ':' ∉ (encodeClassName options (removePositionDeclaration d1)).toList) :
    ∃ classMap newRules,
      cssPipeline (fun _ _ => Except.ok (some ⟨[⟨[[c1]], ds1, p1⟩, ⟨[[c2]], ds2, p2⟩]⟩))
          encodeClassName cssUglifier options input false
        = (some (classMap, newRules), [])
      ∧ (mapKeys newRules).count (encodeClassName options (removePositionDeclaration d1)) = 1
      ∧ encodeClassName options (removePositionDeclaration d1)
          ∈ (mapGet classMap (splitHeadColon c1.original)).getD []
      ∧ encodeClassName options (removePositionDeclaration d1)
          ∈ (mapGet classMap (splitHeadColon c2.original)).getD []
      ∧ ∀ r, mapGet newRules (encodeClassName options (removePositionDeclaration d1)) = some r →
          r.selectors = [[encodeClassName options (removePositionDeclaration d1)]]
            ∧ ∃ d0, r.declarations = [d0] := by
  have hng1 : ¬ ((⟨[[c1]], ds1, p1⟩ : Rule).selectors.headI.headI.type = "tag" ∨
      ((⟨[[c1]], ds1, p1⟩ : Rule).selectors.headI.headI.type = "attribute"
        ∧ (⟨[[c1]], ds1, p1⟩ : Rule).selectors.headI.headI.name ≠ "class")) := by
    show ¬ (c1.type = "tag" ∨ (c1.type = "attribute" ∧ c1.name ≠ "class"))
    rw [h1t, h1n]
    simp
  have hng2 : ¬ ((⟨[[c2]], ds2, p2⟩ : Rule).selectors.headI.headI.type = "tag" ∨
      ((⟨[[c2]], ds2, p2⟩ : Rule).selectors.headI.headI.type = "attribute"
        ∧ (⟨[[c2]], ds2, p2⟩ : Rule).selectors.headI.headI.name ≠ "class")) := by
    show ¬ (c2.type = "tag" ∨ (c2.type = "attribute" ∧ c2.name ≠ "class"))
    rw [h2t, h2n]
    simp
  have hkey1 : atomizedKeyName encodeClassName options
        (removePositionRule ⟨[[c1]], ds1, p1⟩) (removePositionDeclaration d1)
      = encodeClassName options (removePositionDeclaration d1) := rfl
  have hkey2 : atomizedKeyName encodeClassName options
        (removePositionRule ⟨[[c2]], ds2, p2⟩) (removePositionDeclaration d2)
      = encodeClassName options (removePositionDeclaration d2) := rfl
  have hencdet : encodeClassName options (removePositionDeclaration d2)
      = encodeClassName options (removePositionDeclaration d1) :=
    Hdet options (removePositionDeclaration d2) (removePositionDeclaration d1) hp.symm hv.symm
  have hd1' : removePositionDeclaration d1
      ∈ (removePositionRule (⟨[[c1]], ds1, p1⟩ : Rule)).declarations :=
    List.mem_map_of_mem _ hd1
  have hd2' : removePositionDeclaration d2
      ∈ (removePositionRule (⟨[[c2]], ds2, p2⟩ : Rule)).declarations :=
    List.mem_map_of_mem _ hd2
  have hr1 := processRule_class encodeClassName options ([], []) ⟨[[c1]], ds1, p1⟩ hng1
  have hr2 := processRule_class encodeClassName options
    (processRule encodeClassName options ([], []) ⟨[[c1]], ds1, p1⟩) ⟨[[c2]], ds2, p2⟩ hng2
  -- the encoded name is a key after processing the first rule
  have hm1 : encodeClassName options (removePositionDeclaration d1)
      ∈ mapKeys (processRule encodeClassName options ([], []) ⟨[[c1]], ds1, p1⟩).2 := by
    rw [hr1]
    have hm := mem_keys_atomize_fold encodeClassName options
      (removePositionRule ⟨[[c1]], ds1, p1⟩) _ ([], []) _ hd1'
    rw [hkey1] at hm
    exact hm
  have hm2 : encodeClassName options (removePositionDeclaration d1)
      ∈ mapKeys (processRule encodeClassName options
        (processRule encodeClassName options ([], []) ⟨[[c1]], ds1, p1⟩) ⟨[[c2]], ds2, p2⟩).2 :=
    mem_keys_processRule_mono _ _ _ _ _ hm1
  have hnodup : (mapKeys (processRule encodeClassName options
      (processRule encodeClassName options ([], []) ⟨[[c1]], ds1, p1⟩) ⟨[[c2]], ds2, p2⟩).2).Nodup := by
    apply nodup_keys_processRule
    apply nodup_keys_processRule
    simp [mapKeys]
  -- class-map entry for the first selector
  have hc1entry : encodeClassName options (removePositionDeclaration d1)
      ∈ (mapGet (processRule encodeClassName options
          (processRule encodeClassName options ([], []) ⟨[[c1]], ds1, p1⟩)
          ⟨[[c2]], ds2, p2⟩).1 (splitHeadColon c1.original)).getD [] := by
    apply entry_mono_processRule
    rw [hr1]
    have hpush := atomize_fold_pushes encodeClassName options
      (removePositionRule ⟨[[c1]], ds1, p1⟩) _ ([], []) (removePositionDeclaration d1)
      [c1] hd1' (List.mem_singleton_self _)
    rw [hkey1, splitHeadColon_of_no_colon _ hc] at hpush
    exact hpush
  have hc2entry : encodeClassName options (removePositionDeclaration d1)
      ∈ (mapGet (processRule encodeClassName options
          (processRule encodeClassName options ([], []) ⟨[[c1]], ds1, p1⟩)
          ⟨[[c2]], ds2, p2⟩).1 (splitHeadColon c2.original)).getD [] := by
    rw [hr2]
    have hpush := atomize_fold_pushes encodeClassName options
      (removePositionRule ⟨[[c2]], ds2, p2⟩) _
      (processRule encodeClassName options ([], []) ⟨[[c1]], ds1, p1⟩)
      (removePositionDeclaration d2) [c2] hd2' (List.mem_singleton_self _)
    rw [hkey2, hencdet, splitHeadColon_of_no_colon _ hc] at hpush
    exact hpush
  -- atomic shape of every table entry
  have hshape : ∀ k r, mapGet (processRule encodeClassName options
      (processRule encodeClassName options ([], []) ⟨[[c1]], ds1, p1⟩)
      ⟨[[c2]], ds2, p2⟩).2 k = some r → r.selectors = [[k]] ∧ ∃ d0, r.declarations = [d0] := by
    rw [hr2, hr1]
    apply atomic_shape_fold
    apply atomic_shape_fold
    intro k r hget
    exact Option.noConfusion hget
  refine ⟨_, _, rfl, ?_, ?_, ?_, ?_⟩
  · -- count of the encoded key is one
    show (mapKeys (removePositionNewRules _)).count _ = 1
    unfold removePositionNewRules
    rw [mapKeys_map_val]
    exact List.count_eq_one_of_mem hnodup hm2
  · exact mem_entry_dedup _ _ _ hc1entry
  · exact mem_entry_dedup _ _ _ hc2entry
  · intro r hr
    unfold removePositionNewRules at hr
    rw [mapGet_map_val] at hr
    have hr2' : Option.map removePositionOutRule
        (mapGet (processRule encodeClassName options
          (processRule encodeClassName options ([], []) ⟨[[c1]], ds1, p1⟩)
          ⟨[[c2]], ds2, p2⟩).2 (encodeClassName options (removePositionDeclaration d1)))
        = some r := hr
    clear hr
    cases ho : mapGet (processRule encodeClassName options
        (processRule encodeClassName options ([], []) ⟨[[c1]], ds1, p1⟩)
        ⟨[[c2]], ds2, p2⟩).2 (encodeClassName options (removePositionDeclaration d1)) with
    | none =>
        rw [ho] at hr2'
        exact Option.noConfusion hr2'
    | some r0 =>
        rw [ho] at hr2'
        simp only [Option.map_some'] at hr2'
        obtain ⟨hs, d0, hd0⟩ := hshape _ r0 ho
        have hre : removePositionOutRule r0 = r := Option.some.inj hr2'
        subst hre
        refine ⟨?_, removePositionDeclaration d0, ?_⟩
        · show r0.selectors = _
          exact hs
        · show r0.declarations.map removePositionDeclaration = _
          rw [hd0]
          rfl

/-- Witness for C5: `.a` and `.b` both declaring `color:red` share one
atomic rule keyed `.rp__color__red`, listed in both class-map entries. -/
theorem shared_encoding_collapse_witness :
    ∃ classMap newRules,
      cssPipeline (fun _ _ => Except.ok (some ⟨[
            ⟨[[⟨"attribute", "class", ".a"⟩]], [⟨"color", "red", none⟩], none⟩,
            ⟨[[⟨"attribute", "class", ".b"⟩]], [⟨"color", "red", none⟩], none⟩]⟩))
          (fun _ d => ".rp__" ++ d.property ++ "__" ++ d.value) (fun i => ("", i)) {} ".x" false
        = (some (classMap, newRules), [])
      ∧ (mapKeys newRules).count ".rp__color__red" = 1
      ∧ ".rp__color__red" ∈ (mapGet classMap ".a").getD []
      ∧ ".rp__color__red" ∈ (mapGet classMap ".b").getD []
      ∧ ∀ r, mapGet newRules ".rp__color__red" = some r →
          r.selectors = [[".rp__color__red"]] ∧ ∃ d0, r.declarations = [d0] := by
  have h := shared_encoding_collapse
    (fun _ d => ".rp__" ++ d.property ++ "__" ++ d.value) (fun i => ("", i)) {} ".x"
    ⟨"attribute", "class", ".a"⟩ ⟨"attribute", "class", ".b"⟩
    [⟨"color", "red", none⟩] [⟨"color", "red", none⟩] none none
    ⟨"color", "red", none⟩ ⟨"color", "red", none⟩
    (fun o d d' hp hv => by simp [hp, hv]) rfl rfl rfl rfl (by decide)
    (by decide) (by decide) rfl rfl (by decide)
  exact h

/-! ### Uglification -/

/-- The class-map/counter effect of one uglification iteration (the table
update of `uglifyStep` does not feed back into these two components). -/
def uglifyMapStep (cssUglifier : Nat → String × Nat)
    (st : JsMap (List String) × Nat) (key : String) : JsMap (List String) × Nat :=
  if jsStartsWithDot key then
    (st.1.map (fun p => (p.1, replaceFirst p.2 (splitHeadColon key) (cssUglifier st.2).1)),
     (cssUglifier st.2).2)
  else st

theorem uglifyStep_proj (cssUglifier : Nat → String × Nat)
    (st : JsMap OutRule × JsMap (List String) × Nat) (k : String) :
    (uglifyStep cssUglifier st k).2 = uglifyMapStep cssUglifier st.2 k := by
  unfold uglifyStep uglifyMapStep
  by_cases hk : jsStartsWithDot k = true
  · rw [if_pos hk, if_pos hk]
  · rw [if_neg hk, if_neg hk]

theorem uglify_fold_proj (cssUglifier : Nat → String × Nat) (ks : List String)
    (st : JsMap OutRule × JsMap (List String) × Nat) :
    (ks.foldl (uglifyStep cssUglifier) st).2 = ks.foldl (uglifyMapStep cssUglifier) st.2 := by
  induction ks generalizing st with
  | nil => rfl
  | cons k ks ih =>
      rw [List.foldl_cons, List.foldl_cons, ih, uglifyStep_proj]

/-- C6 counterexample: an injective generator whose counter is carried
forward, but whose first token happens to equal the base of a later class
key, makes the class-map rewrite wrong: the final entry still contains a
value equal to the old base key `.` that was not rewritten to its
corresponding token `.z`, and the final map differs from the claimed
per-value substitution. -/
theorem uglify_injective_counterexample :
    (∀ i j : Nat, i ≠ j →
      ((fun i => (String.mk ('.' :: List.replicate i 'z'), i + 1)) i).1
        ≠ ((fun i => (String.mk ('.' :: List.replicate i 'z'), i + 1)) j).1)
    ∧ (∀ i : Nat,
        ((fun i => (String.mk ('.' :: List.replicate i 'z'), i + 1)) i).2 = i + 1)
    ∧ uglifyPass (fun i => (String.mk ('.' :: List.replicate i 'z'), i + 1))
        [(".z", ⟨"rule", [[".z"]], []⟩), (".", ⟨"rule", [["."]], []⟩)] [(".x", [".z", "."])]
        = ([(".z", ⟨"rule", [[".z"]], []⟩)], [(".x", [".z", "."])], 2)
    ∧ [(".x", [".z", "."])]
        ≠ claimedRewrite [".z", "."]
            (fun i => (String.mk ('.' :: List.replicate i 'z'), i + 1))
            [(".x", [".z", "."])]
    ∧ "." ∈ (([".z", "."] : List String))
    ∧ ("." : String) ≠ ".z" := by
  refine ⟨?_, fun i => rfl, by decide, by decide, by decide, by decide⟩
  intro i j hne heq
  have hdata : ('.' :: List.replicate i 'z') = ('.' :: List.replicate j 'z') :=
    congrArg String.data heq
  have hlen := congrArg List.length hdata
  simp only [List.length_cons, List.length_replicate] at hlen
  exact hne (by omega)

theorem nodup_getElem_not_mem_take (bs : List String) (j : Nat) (hnd : bs.Nodup)
    (hj : j < bs.length) : bs[j] ∉ bs.take j := by
  intro hmem
  have hsplit : bs.take j ++ bs.drop j = bs := List.take_append_drop j bs
  have hnd2 : (bs.take j ++ bs.drop j).Nodup := by
    rw [hsplit]
    exact hnd
  have hdisj := (List.nodup_append.mp hnd2).2.2
  have hdropmem : bs[j] ∈ bs.drop j := by
    rw [List.drop_eq_getElem_cons hj]
    exact List.mem_cons_self _ _
  exact hdisj hmem hdropmem

theorem claimedSubst_of_not_mem (bs : List String) (cssUglifier : Nat → String × Nat)
    (v : String) (hv : v ∉ bs) : claimedSubst bs cssUglifier v = v := by
  have h : bs.findIdx? (fun b => b == v) = none := by
    rw [List.findIdx?_eq_none_iff]
    intro x hx
    rw [beq_eq_false_iff_ne]
    intro hc
    exact hv (hc ▸ hx)
  unfold claimedSubst
  rw [h]

theorem claimedSubst_take_succ_of_ne (bs : List String) (cssUglifier : Nat → String × Nat)
    (j : Nat) (v : String) (hj : j < bs.length) (hv : v ≠ bs[j]) :
    claimedSubst (bs.take (j + 1)) cssUglifier v = claimedSubst (bs.take j) cssUglifier v := by
  have hb : (bs[j] == v) = false := beq_eq_false_iff_ne.mpr (fun hc => hv hc.symm)
  unfold claimedSubst
  rw [List.take_succ, List.getElem?_eq_getElem hj]
  rw [show (some bs[j]).toList = [bs[j]] from rfl]
  rw [List.findIdx?_append]
  rw [show ([bs[j]] : List String).findIdx? (fun b => b == v) = none from by
    simp [List.findIdx?_cons, hb]]
  simp

theorem claimedSubst_take_succ_self (bs : List String) (cssUglifier : Nat → String × Nat)
    (j : Nat) (hj : j < bs.length) (hnd : bs.Nodup) :
    claimedSubst (bs.take (j + 1)) cssUglifier bs[j] = (cssUglifier j).1 := by
  unfold claimedSubst
  rw [List.take_succ, List.getElem?_eq_getElem hj]
  rw [show (some bs[j]).toList = [bs[j]] from rfl]
  rw [List.findIdx?_append]
  rw [show (bs.take j).findIdx? (fun b => b == bs[j]) = none from by
    rw [List.findIdx?_eq_none_iff]
    intro x hx
    rw [beq_eq_false_iff_ne]
    intro hc
    exact nodup_getElem_not_mem_take bs j hnd hj (hc ▸ hx)]
  rw [show ([bs[j]] : List String).findIdx? (fun b => b == bs[j]) = some 0 from by
    simp [List.findIdx?_cons]]
  simp [List.length_take, Nat.min_eq_left (Nat.le_of_lt hj)]

theorem claimedSubst_take_ne_base (bs : List String) (cssUglifier : Nat → String × Nat)
    (j : Nat) (v : String) (hj : j < bs.length)
    (hfb : ∀ i, i < bs.length → (cssUglifier i).1 ∉ bs) (hv : v ≠ bs[j]) :
    claimedSubst (bs.take j) cssUglifier v ≠ bs[j] := by
  unfold claimedSubst
  cases hfind : (bs.take j).findIdx? (fun b => b == v) with
  | none => exact hv
  | some i =>
      show (cssUglifier i).1 ≠ bs[j]
      have hi : i < (bs.take j).length := by
        rcases List.findIdx?_eq_some_iff_getElem.mp hfind with ⟨h, _, _⟩
        exact h
      have hib : i < bs.length := by
        rw [List.length_take] at hi
        omega
      intro hc
      exact hfb i hib (hc ▸ List.getElem_mem hj)

theorem replaceFirst_map_subst (cssUglifier : Nat → String × Nat) (bs : List String)
    (j : Nat) (vs : List String) (hj : j < bs.length) (hnd : bs.Nodup) (hvs : vs.Nodup)
    (hfb : ∀ i, i < bs.length → (cssUglifier i).1 ∉ bs) :
    replaceFirst (vs.map (claimedSubst (bs.take j) cssUglifier)) bs[j] (cssUglifier j).1
      = vs.map (claimedSubst (bs.take (j + 1)) cssUglifier) := by
  induction vs with
  | nil => rfl
  | cons v vs ih =>
      have hvtail : vs.Nodup := (List.nodup_cons.mp hvs).2
      have hvnot : v ∉ vs := (List.nodup_cons.mp hvs).1
      by_cases hv : v = bs[j]
      · have hbnot : bs[j] ∉ vs := hv ▸ hvnot
        have hhead : claimedSubst (bs.take j) cssUglifier v = v := by
          rw [hv]
          exact claimedSubst_of_not_mem _ _ _ (nodup_getElem_not_mem_take bs j hnd hj)
        simp only [List.map_cons, replaceFirst, hhead, if_pos hv]
        rw [hv, claimedSubst_take_succ_self bs cssUglifier j hj hnd]
        congr 1
        apply List.map_congr_left
        intro w hw
        exact (claimedSubst_take_succ_of_ne bs cssUglifier j w hj
          (fun hc => hbnot (hc ▸ hw))).symm
      · have hhead : claimedSubst (bs.take j) cssUglifier v ≠ bs[j] :=
          claimedSubst_take_ne_base bs cssUglifier j v hj hfb hv
        simp only [List.map_cons, replaceFirst, if_neg hhead]
        rw [ih hvtail]
        rw [claimedSubst_take_succ_of_ne bs cssUglifier j v hj hv]

theorem claimedRewrite_nil (cssUglifier : Nat → String × Nat) (cm : JsMap (List String)) :
    claimedRewrite [] cssUglifier cm = cm := by
  unfold claimedRewrite
  have h1 : ∀ p : String × List String, (p.1, p.2.map (claimedSubst [] cssUglifier)) = p := by
    intro p
    have h2 : p.2.map (claimedSubst [] cssUglifier) = p.2 := by
      rw [show p.2.map (claimedSubst [] cssUglifier) = p.2.map id from
        List.map_congr_left (fun v _ => rfl), List.map_id]
    rw [h2]
  rw [List.map_congr_left (fun p _ => h1 p)]
  simp

theorem uglify_mapfold_inv (cssUglifier : Nat → String × Nat) (cm0 : JsMap (List String))
    (allClass : List String)
    (Hnd : (allClass.map splitHeadColon).Nodup)
    (Hvals : ∀ p ∈ cm0, p.2.Nodup)
    (Hfb : ∀ i, i < allClass.length → (cssUglifier i).1 ∉ allClass.map splitHeadColon)
    (Hnext : ∀ i, i < allClass.length → (cssUglifier i).2 = i + 1) :
    ∀ (ks : List String) (j : Nat), j ≤ allClass.length →
      allClass.drop j = ks.filter (fun k => jsStartsWithDot k) →
      ks.foldl (uglifyMapStep cssUglifier)
        (claimedRewrite ((allClass.map splitHeadColon).take j) cssUglifier cm0, j)
      = (claimedRewrite (allClass.map splitHeadColon) cssUglifier cm0, allClass.length) := by
  intro ks
  induction ks with
  | nil =>
      intro j hj hdrop
      have hlen : allClass.length ≤ j := by
        have hlen0 := congrArg List.length hdrop
        rw [List.length_drop] at hlen0
        simp only [List.filter_nil, List.length_nil] at hlen0
        omega
      have hj' : j = allClass.length := Nat.le_antisymm hj hlen
      subst hj'
      rw [List.foldl_nil]
      rw [show (allClass.map splitHeadColon).take allClass.length
          = allClass.map splitHeadColon from by
        rw [show allClass.length = (allClass.map splitHeadColon).length from
          (List.length_map _ _).symm, List.take_length]]
  | cons k ks ih =>
      intro j hj hdrop
      rw [List.foldl_cons]
      by_cases hk : jsStartsWithDot k = true
      · rw [List.filter_cons_of_pos hk] at hdrop
        have hjlt : j < allClass.length := by
          by_contra hge
          rw [List.drop_eq_nil_of_le (by omega)] at hdrop
          exact List.noConfusion hdrop
        rw [List.drop_eq_getElem_cons hjlt] at hdrop
        have h1 : allClass[j] = k := (List.cons.injEq _ _ _ _ ▸ hdrop).1
        have h2 : allClass.drop (j + 1) = ks.filter (fun k => jsStartsWithDot k) :=
          (List.cons.injEq _ _ _ _ ▸ hdrop).2
        have hjm : j < (allClass.map splitHeadColon).length := by
          rw [List.length_map]
          exact hjlt
        have hbase : splitHeadColon k = (allClass.map splitHeadColon)[j] := by
          rw [List.getElem_map]
          exact (congrArg splitHeadColon h1).symm
        have hfb' : ∀ i, i < (allClass.map splitHeadColon).length →
            (cssUglifier i).1 ∉ allClass.map splitHeadColon := by
          intro i hi
          rw [List.length_map] at hi
          exact Hfb i hi
        have hstep : uglifyMapStep cssUglifier
            (claimedRewrite ((allClass.map splitHeadColon).take j) cssUglifier cm0, j) k
            = (claimedRewrite ((allClass.map splitHeadColon).take (j + 1)) cssUglifier cm0,
               j + 1) := by
          unfold uglifyMapStep
          rw [if_pos hk]
          have hsnd : (cssUglifier j).2 = j + 1 := Hnext j hjlt
          have hfst : (claimedRewrite ((allClass.map splitHeadColon).take j) cssUglifier cm0).map
              (fun p => (p.1, replaceFirst p.2 (splitHeadColon k) (cssUglifier j).1))
              = claimedRewrite ((allClass.map splitHeadColon).take (j + 1)) cssUglifier cm0 := by
            unfold claimedRewrite
            rw [List.map_map]
            apply List.map_congr_left
            intro p hp
            show (p.1, replaceFirst (p.2.map
              (claimedSubst ((allClass.map splitHeadColon).take j) cssUglifier))
              (splitHeadColon k) (cssUglifier j).1) = _
            rw [hbase]
            rw [replaceFirst_map_subst cssUglifier (allClass.map splitHeadColon) j p.2 hjm
              Hnd (Hvals p hp) hfb']
          rw [hsnd, hfst]
        rw [hstep]
        exact ih (j + 1) (by omega) h2
      · rw [List.filter_cons_of_neg hk] at hdrop
        rw [show uglifyMapStep cssUglifier
            (claimedRewrite ((allClass.map splitHeadColon).take j) cssUglifier cm0, j) k
            = (claimedRewrite ((allClass.map splitHeadColon).take j) cssUglifier cm0, j) from by
          unfold uglifyMapStep
          rw [if_neg hk]]
        exact ih j hj hdrop

/-- C6 as amended: with N the number of class-based keys of the table,
a generator that is injective in its counter and carries the counter
forward, whose tokens are moreover fresh (never equal to a class-key
base), operating on a class map whose entries are deduplicated and whose
class-key bases are pairwise distinct, the uglification pass (a) draws N
pairwise-distinct tokens at counters 0..N-1, (b) leaves the counter at N,
(c) rewrites every class-map value equal to an old base key to the
corresponding bare token (per-value substitution), and (d) moves each
class rule to the key token-plus-pseudo-suffix, rewriting its embedded
selector, while the map stores tokens only. -/
theorem uglify_uniqueness_amended
    (cssUglifier : Nat → String × Nat) (newRules : JsMap OutRule)
    (classMap : JsMap (List String))
    (Hnext : ∀ i, i < ((mapKeys newRules).filter (fun k => jsStartsWithDot k)).length →
      (cssUglifier i).2 = i + 1)
    (Hinj : ∀ i j, i < ((mapKeys newRules).filter (fun k => jsStartsWithDot k)).length →
      j < ((mapKeys newRules).filter (fun k => jsStartsWithDot k)).length → i ≠ j →
      (cssUglifier i).1 ≠ (cssUglifier j).1)
    (Hfresh : ∀ i, i < ((mapKeys newRules).filter (fun k => jsStartsWithDot k)).length →
      (cssUglifier i).1
        ∉ ((mapKeys newRules).filter (fun k => jsStartsWithDot k)).map splitHeadColon)
    (Hbases : ((((mapKeys newRules).filter (fun k => jsStartsWithDot k)).map
      splitHeadColon)).Nodup)
    (Hvals : ∀ p ∈ classMap, p.2.Nodup) :
    ((List.range ((mapKeys newRules).filter (fun k => jsStartsWithDot k)).length).map
        (fun i => (cssUglifier i).1)).Nodup
    ∧ (uglifyPass cssUglifier newRules classMap).2.2
        = ((mapKeys newRules).filter (fun k => jsStartsWithDot k)).length
    ∧ (uglifyPass cssUglifier newRules classMap).2.1
        = claimedRewrite (((mapKeys newRules).filter (fun k => jsStartsWithDot k)).map
            splitHeadColon) cssUglifier classMap
    ∧ (∀ (nr : JsMap OutRule) (cm : JsMap (List String)) (idx : Nat) (k : String) (r : OutRule),
        jsStartsWithDot k = true → mapGet nr k = some r →
        (cssUglifier idx).1 ++ pseudoPart k ≠ k →
        mapGet (uglifyStep cssUglifier (nr, cm, idx) k).1 ((cssUglifier idx).1 ++ pseudoPart k)
          = some ⟨r.type, setFirstSelector r.selectors ((cssUglifier idx).1 ++ pseudoPart k),
              r.declarations⟩
        ∧ (uglifyStep cssUglifier (nr, cm, idx) k).2.1
          = cm.map (fun p => (p.1, replaceFirst p.2 (splitHeadColon k) (cssUglifier idx).1))) := by
  have hinv := uglify_mapfold_inv cssUglifier classMap
    ((mapKeys newRules).filter (fun k => jsStartsWithDot k)) Hbases Hvals Hfresh Hnext
    (mapKeys newRules) 0 (Nat.zero_le _) (by rw [List.drop_zero])
  rw [List.take_zero, claimedRewrite_nil] at hinv
  have hmain : (uglifyPass cssUglifier newRules classMap).2
      = (claimedRewrite (((mapKeys newRules).filter (fun k => jsStartsWithDot k)).map
          splitHeadColon) cssUglifier classMap,
         ((mapKeys newRules).filter (fun k => jsStartsWithDot k)).length) := by
    show ((mapKeys newRules).foldl (uglifyStep cssUglifier) (newRules, classMap, 0)).2 = _
    rw [uglify_fold_proj]
    exact hinv
  refine ⟨?_, ?_, ?_, ?_⟩
  · apply List.Nodup.map_on
    · intro x hx y hy hxy
      by_contra hne
      exact Hinj x y (List.mem_range.mp hx) (List.mem_range.mp hy) hne hxy
    · exact List.nodup_range _
  · exact congrArg Prod.snd hmain
  · exact congrArg Prod.fst hmain
  · intro nr cm idx k r hk hget hne
    constructor
    · unfold uglifyStep
      rw [if_pos hk, hget]
      show mapGet (mapDelete (mapSet nr ((cssUglifier idx).1 ++ pseudoPart k)
          ⟨r.type, setFirstSelector r.selectors ((cssUglifier idx).1 ++ pseudoPart k),
            r.declarations⟩) k) ((cssUglifier idx).1 ++ pseudoPart k) = _
      rw [mapGet_mapDelete_ne _ _ _ hne, mapGet_mapSet_self]
    · unfold uglifyStep
      rw [if_pos hk]

/-- Witness for the amended C6 on a one-entry table with a concrete
injective generator. -/
theorem uglify_uniqueness_amended_witness :
    (uglifyPass (fun i => ((".t" : String), i + 1))
        [(".p", ⟨"rule", [[".p"]], []⟩)] [(".x", [".p"])]).2.1 = [(".x", [".t"])]
    ∧ (uglifyPass (fun i => ((".t" : String), i + 1))
        [(".p", ⟨"rule", [[".p"]], []⟩)] [(".x", [".p"])]).2.2 = 1
    ∧ mapGet (uglifyStep (fun i => ((".t" : String), i + 1))
        ([(".p", ⟨"rule", [[".p"]], []⟩)], [(".x", [".p"])], 0) ".p").1 ".t"
      = some ⟨"rule", [[".t"]], []⟩ := by
  have h := uglify_uniqueness_amended (fun i => ((".t" : String), i + 1))
      [(".p", ⟨"rule", [[".p"]], []⟩)] [(".x", [".p"])]
      (fun i _ => rfl)
      (by
        intro i j hi hj hne
        have hl : ((mapKeys [((".p" : String), (⟨"rule", [[".p"]], []⟩ : OutRule))]).filter
            (fun k => jsStartsWithDot k)).length = 1 := by decide
        rw [hl] at hi hj
        omega)
      (by intro i _; show (".t" : String) ∉ _; decide) (by decide) (by decide)
  refine ⟨?_, ?_, ?_⟩
  · rw [h.2.2.1]
    decide
  · rw [h.2.1]
    decide
  · have h4 := h.2.2.2 [(".p", ⟨"rule", [[".p"]], []⟩)] [(".x", [".p"])] 0 ".p"
      ⟨"rule", [[".p"]], []⟩ (by decide) (by decide) (by decide)
    have h5 := h4.1
    rw [show ((fun i => ((".t" : String), i + 1)) 0).1 ++ pseudoPart ".p" = ".t" from by
      decide] at h5
    exact h5
